/-
  Verification of the authoritative zone engine (lib/zone.js).

  Shallow embedding: DNS names are lists of labels (leftmost label first,
  trailing root label implicit, so `"a.example."` is `["a", "example"]` and
  the root `"."` is `[]`); records are a structure holding the owner name,
  the 16-bit type and the embedded names the engine inspects; the JS `Map`s
  are association lists; thrown assertions and errors are `Except.error`;
  the external DNSSEC signer is an opaque function carried by the zone.
  The `for (const rr of an)` loop in `Zone.find` iterates over an array
  that its own body extends, which does not terminate on CNAME cycles, so
  it is embedded with an explicit fuel parameter.
-/
import Mathlib

/-- A DNS name: its labels, leftmost first; the root name is `[]`. -/
abbrev Name := List String

/-- Error outcomes of the engine: `notAnNXDomain` is the explicit
`throw new Error('Not an NXDOMAIN.')` of `findLower`; `assertFail` is a
failed `bsert` assertion (such as `assert(Array.isArray(an))` in
`Zone.push`, or the external comparator's string-input assertion);
`outOfFuel` marks a non-terminating chase loop; `notChild` is
`throw new Error('Not a child of this zone.')` in `Zone.insert`. -/
inductive ZErr where
  | notAnNXDomain
  | assertFail
  | outOfFuel
  | notChild
deriving DecidableEq, Repr

namespace types

/-- RR type numbers used by the engine (lib/constants.js). -/
def A : Nat := 1

def NS : Nat := 2

def CNAME : Nat := 5

def SOA : Nat := 6

def MX : Nat := 15

def AAAA : Nat := 28

def SRV : Nat := 33

def DNAME : Nat := 39

def DS : Nat := 43

def RRSIG : Nat := 46

def NSEC : Nat := 47

def ANY : Nat := 255

end types

namespace codes

/-- Response codes (lib/constants.js). -/
def NOERROR : Nat := 0

def NXDOMAIN : Nat := 3

end codes

/-- A resource record, restricted to the fields `zone.js` inspects:
`name` and `type`, the rdata names it chases (`target` for
CNAME/DNAME/SRV, `ns` for NS/SOA MNAME, `mx` for the MX exchanger), the
RRSIG `typeCovered` field, and `payload`, an abstract stand-in for the
rest of the rdata (addresses, ttl, ...), so that distinct records stay
distinct. -/
structure Record where
  name : Name
  type : Nat
  target : Name := []
  ns : Name := []
  mx : Name := []
  typeCovered : Nat := 0
  payload : Nat := 0
deriving DecidableEq, Repr, Inhabited

/-- The external signer: `dnssec.sign(zskkey, zskpriv, rrset)` with the
two key arguments fixed.  Kept opaque; the engine only appends its
result. -/
abbrev SignFn := List Record → Record

/-- ASCII lowercasing of one label (`String.toLower`, expressed on the
character list so that it evaluates definitionally). -/
def lowerLabel (s : String) : String := ⟨s.data.map Char.toLower⟩

/-- Modelled from the spec: `name.toLowerCase()` / canonical lowercasing
of a name, label by label. -/
def nameLower (n : Name) : Name := n.map lowerLabel

/-- `rr.deepClone(); rr.canonical()`: lowercase the owner and the
embedded names of the rdata. -/
def canonicalRecord (r : Record) : Record :=
  { r with
    name := nameLower r.name
    target := nameLower r.target
    ns := nameLower r.ns
    mx := nameLower r.mx }

/-- Modelled from the spec: `util.isSubdomain(parent, child)` — the child
name equals the parent or extends it on the left, i.e. the parent's
labels are the rightmost labels of the child. -/
def isSubdomain (parent child : Name) : Bool :=
  parent.isSuffixOf child

/-- Modelled from the spec: `util.from(name, labels, -k)`, the suffix
selector by label count from the right.  For `k = 0` (the root zone has
zero labels and JavaScript's `-0` is not `< 0`) the suffix starts at
label index `0`, i.e. the whole name is returned: this is the reading
under which the spec's root-zone scenarios (authoritative exactly at
`.`, NXDOMAIN for other names) come out. -/
def suffixFrom (name : Name) (k : Nat) : Name :=
  if k = 0 then name else name.drop (name.length - k)

/-- Modelled from the spec: a label comparison for canonical DNS order —
bytewise unsigned comparison of the (already lowercased) label bytes,
expressed on the character lists so that it evaluates definitionally. -/
def labelCmp (a b : String) : Ordering :=
  if a.data < b.data then .lt else if a.data = b.data then .eq else .gt

/-- Canonical-order comparison of two reversed label sequences: compare
from the rightmost label toward the left; a name that runs out first
(a proper suffix) is smaller. -/
def cmpRev : List String → List String → Ordering
  | [], [] => .eq
  | [], _ :: _ => .lt
  | _ :: _, [] => .gt
  | a :: as, b :: bs =>
    match labelCmp a b with
    | .eq => cmpRev as bs
    | o => o

/-- Modelled from the spec: `util.compare(a, b)`, canonical DNS order. -/
def nameCmp (a b : Name) : Ordering :=
  cmpRev a.reverse b.reverse

/-- `a` is strictly smaller than `b` in canonical order. -/
def nameLt (a b : Name) : Prop := nameCmp a b = .lt

instance (a b : Name) : Decidable (nameLt a b) := by
  unfold nameLt; infer_instance

/-- `search(items, key, util.compare, true)`: binary search for the
insertion point.  `start`/`fin` are the JS `start`/`end` cursors; the
bounds check on `fin` makes the indexing total and is implied by the
call-site invariant (`fin = items.length - 1` on a non-empty array).
The loop halves `fin + 1 - start` each round, so running it with
structural fuel `items.length` (supplied by `search`) is exact: the
fuel never runs out on a call satisfying the invariant. -/
def searchGo (items : List Name) (key : Name) : Nat → Nat → Nat → Nat
  | 0, start, _ => start
  | fuel + 1, start, fin =>
    if h : start ≤ fin ∧ fin < items.length then
      match nameCmp (items.get ⟨(start + fin) / 2, by omega⟩) key with
      | .eq => (start + fin) / 2
      | .lt => searchGo items key fuel ((start + fin) / 2 + 1) fin
      | .gt =>
        if (start + fin) / 2 = 0 then start
        else searchGo items key fuel start ((start + fin) / 2 - 1)
    else start

/-- `search` with `insert = true`, as used by `insertString` and
`findLower`; on an empty array the loop body never runs and `start = 0`
is returned. -/
def search (items : List Name) (key : Name) : Nat :=
  if items.length = 0 then 0
  else searchGo items key items.length 0 (items.length - 1)

/-- `insert(items, item, util.compare, uniq = true)` followed by
`insertString`: find the insertion point; if an equal element sits
there, do nothing; otherwise splice the name in.  (The JS function
returns an index that `NameList.insert`'s callers discard, so the model
returns the updated list.) -/
def insertString (items : List Name) (name : Name) : List Name :=
  if h : search items name < items.length then
    if nameCmp (items.get ⟨search items name, h⟩) name = .eq then items
    else items.take (search items name) ++ name :: items.drop (search items name)
  else items.take (search items name) ++ name :: items.drop (search items name)

/-- `findLower(items, name)`: the NSEC predecessor lookup.  When the
searched position is past the end (every stored name is smaller than
`name`), the JS code reads `items[i] === undefined` and hands it to
`util.compare`, whose string-input assertion fails (spec §7:
InvalidInput, assertion-style fast-fail) — modelled as `.assertFail`. -/
def findLower (items : List Name) (name : Name) : Except ZErr (Option Name) :=
  if items.length = 0 then .ok none
  else
    match items[search items name]? with
    | none => .error .assertFail
    | some m =>
      if nameCmp m name = .eq then .error .notAnNXDomain
      else if nameCmp m name = .lt then .ok (some m)
      else if search items name = 0 then .ok none
      else .ok items[search items name - 1]?

/-- `isWild(name)`: the name's string form starts with `"*."`, i.e. its
first label is exactly `*`. -/
def isWild : Name → Bool
  | [] => false
  | l :: _ => l == "*"

/-- `convert(name, rr)`: wildcard-matched records are cloned with the
owner rewritten to the queried name; others are returned as stored. -/
def convert (name : Name) (rr : Record) : Record :=
  if isWild rr.name then { rr with name := name } else rr

/-- The per-record test of `RecordMap.filterMatches`: non-wildcard
owners pass unchecked; a wildcard owner `*.T` passes iff the query name
has at least as many labels as `*.T` and, after dropping the `*` label,
the remaining labels of `T` equal the corresponding rightmost labels of
the query name (the source's right-to-left index loop, phrased as a
reversed-prefix test). -/
def filterKeep (name : Name) (rr : Record) : Bool :=
  if !isWild rr.name then true
  else
    let x := name
    let y := rr.name
    if x.length < y.length then false
    else
      let y' := y.tail
      y'.reverse.isPrefixOf x.reverse

/-- `RecordMap.filterMatches(name, rrs)`. -/
def filterMatches (name : Name) (rrs : List Record) : List Record :=
  rrs.filter (filterKeep name)

/-- Association-list lookup, modelling `Map.get` (`none` ↔ `undefined`). -/
def alGet {κ α : Type} [BEq κ] (m : List (κ × α)) (k : κ) : Option α :=
  (m.find? (fun p => p.1 == k)).map (fun p => p.2)

/-- `if (!m.has(k)) m.set(k, []); m.get(k).push(r)` on a `type → rrs`
map: append `r` to the entry for `k`, creating it if missing (new keys
go to the end, as in a JS `Map`). -/
def alAppend (m : List (Nat × List Record)) (k : Nat) (r : Record) :
    List (Nat × List Record) :=
  match m with
  | [] => [(k, [r])]
  | (k', l) :: rest =>
    if k' == k then (k', l ++ [r]) :: rest else (k', l) :: alAppend rest k r

/-- `RecordMap`: per-owner index `rrs : type → RRs` and
`sigs : covered type → RRSIGs`.  The back-reference to the owning zone
(used only to reach the ZSK) is passed to `push` as a parameter. -/
structure RecordMap where
  rrs : List (Nat × List Record) := []
  sigs : List (Nat × List Record) := []
deriving Inhabited

/-- `RecordMap.insert(rr)`. -/
def RecordMap.insert (m : RecordMap) (rr : Record) : RecordMap :=
  { rrs := alAppend m.rrs rr.type rr
    sigs :=
      if rr.type == types.RRSIG then alAppend m.sigs rr.typeCovered rr
      else m.sigs }

/-- The second half of `RecordMap.push`: look up `rrs[type]`, emit the
matching records (wildcard owners rewritten), then the stored RRSIGs
covering `type`, or — when no RRSIG entry exists and the zone holds a
ZSK — one signature computed over everything pushed so far. -/
def RecordMap.pushType (m : RecordMap) (zsk : Option SignFn) (name : Name)
    (t : Nat) (an : List Record) : List Record :=
  match alGet m.rrs t with
  | some rrs =>
    if 0 < rrs.length then
      let an1 := an ++ (filterMatches name rrs).map (convert name)
      match alGet m.sigs t with
      | some sigs => an1 ++ (filterMatches name sigs).map (convert name)
      | none =>
        match zsk with
        | some signf => an1 ++ [signf an1]
        | none => an1
    else an
  | none => an

/-- `RecordMap.push(name, type, an)`: for a non-CNAME query type, a
non-empty stored CNAME RRset short-circuits the lookup (RFC 1034 §3.6.2 /
RFC 1912 §2.4): its matches, their covering RRSIGs or an on-the-fly
signature are emitted and the requested type is never consulted. -/
def RecordMap.push (m : RecordMap) (zsk : Option SignFn) (name : Name)
    (t : Nat) (an : List Record) : List Record :=
  if t != types.CNAME then
    match alGet m.rrs types.CNAME with
    | some crs =>
      if 0 < crs.length then
        let an1 := an ++ (filterMatches name crs).map (convert name)
        match alGet m.sigs types.CNAME with
        | some sigs => an1 ++ (filterMatches name sigs).map (convert name)
        | none =>
          match zsk with
          | some signf => an1 ++ [signf an1]
          | none => an1
      else m.pushType zsk name t an
    | none => m.pushType zsk name t an
  else m.pushType zsk name t an

/-- `RecordMap.get(name, type)`. -/
def RecordMap.get (m : RecordMap) (zsk : Option SignFn) (name : Name)
    (t : Nat) : List Record :=
  m.push zsk name t []

/-- The zone: origin (lowercase), its label count, the exact-owner
table, the wildcard map, the NSEC `NameList` (a canonically sorted list
of names), and the optional signer standing for the
`zskkey`/`zskpriv` pair. -/
structure Zone where
  origin : Name := []
  count : Nat := 0
  names : List (Name × RecordMap) := []
  wild : RecordMap := {}
  nsec : List Name := []
  zsk : Option SignFn := none

/-- `new Zone(origin)` / `setOrigin`: lowercase the origin and record
its label count. -/
def mkZone (origin : Name) : Zone :=
  { origin := nameLower origin, count := (nameLower origin).length }

/-- `this.names.has/set/get` composite used by `Zone.insert`: append the
record to the owner's `RecordMap`, creating the entry if missing. -/
def tableInsert (tbl : List (Name × RecordMap)) (n : Name) (rr : Record) :
    List (Name × RecordMap) :=
  match tbl with
  | [] => [(n, RecordMap.insert {} rr)]
  | (k, m) :: rest =>
    if k == n then (k, m.insert rr) :: rest else (k, m) :: tableInsert rest n rr

/-- `Zone.insert(record)`: deep-clone and canonicalize; reject non-A/AAAA
records that are not under the origin; wildcard owners go to the
wildcard map, others to the exact-owner table; NSEC owners are also
added to the NSEC name list. -/
def Zone.insert (z : Zone) (record : Record) : Except ZErr Zone :=
  let rr := canonicalRecord record
  if rr.type != types.A && rr.type != types.AAAA &&
      !isSubdomain z.origin rr.name then
    .error .notChild
  else
    let nsec' :=
      if rr.type == types.NSEC then insertString z.nsec rr.name else z.nsec
    if isWild rr.name then
      .ok { z with wild := z.wild.insert rr, nsec := nsec' }
    else
      .ok { z with names := tableInsert z.names rr.name rr, nsec := nsec' }

/-- `Zone.push(name, type, an)`: dispatch to the exact-owner map when
one exists for `name`, else to the wildcard map. -/
def Zone.push (z : Zone) (name : Name) (t : Nat) (an : List Record) :
    List Record :=
  match alGet z.names name with
  | some m => m.push z.zsk name t an
  | none => z.wild.push z.zsk name t an

/-- `Zone.get(name, type)`. -/
def Zone.get (z : Zone) (name : Name) (t : Nat) : List Record :=
  z.push name t []

/-- `Zone.has(name, type)`: consults only the exact-owner table
(`map.rrs.has(type)`). -/
def Zone.has (z : Zone) (name : Name) (t : Nat) : Bool :=
  match alGet z.names name with
  | none => false
  | some m => (alGet m.rrs t).isSome

/-- `Zone.glue(name, an, type, ns)`: push A+AAAA (when `type` is absent
or `0`, both falsy in JS) or the given type for `name` into `an`; if
nothing was appended, push the SOA **stored at `name`** into `ns` — and
when `ns` was not supplied (the NS/SOA/MX/SRV call sites of `find`),
that `this.push(name, types.SOA, undefined)` fails `Zone.push`'s
`assert(Array.isArray(an))`. -/
def Zone.glue (z : Zone) (name : Name) (an : List Record) (ty : Option Nat)
    (ns : Option (List Record)) :
    Except ZErr (List Record × Option (List Record)) :=
  let an' :=
    match ty with
    | none => z.push name types.AAAA (z.push name types.A an)
    | some t =>
      if t == 0 then z.push name types.AAAA (z.push name types.A an)
      else z.push name t an
  if an'.length = an.length then
    match ns with
    | some l => .ok (an', some (z.push name types.SOA l))
    | none => .error .assertFail
  else .ok (an', ns)

/-- The `for (const rr of an)` loop of `Zone.find`: the JS iterator also
visits elements appended during the loop, so the cursor `i` runs over a
growing list; `fuel` bounds the number of processed elements (a CNAME
cycle exhausts it). -/
def Zone.findLoop (z : Zone) (qtype : Nat) :
    Nat → List Record → Nat → List Record → List Record →
    Except ZErr (List Record × List Record × List Record)
  | 0, an, i, ar, ns =>
    if i < an.length then .error .outOfFuel else .ok (an, ar, ns)
  | fuel + 1, an, i, ar, ns =>
    if h : i < an.length then
      let rr := an.get ⟨i, h⟩
      if rr.type == types.CNAME || rr.type == types.DNAME then
        match z.glue rr.target an (some qtype) (some ns) with
        | .error e => .error e
        | .ok (an', ns') => Zone.findLoop z qtype fuel an' (i + 1) ar (ns'.getD ns)
      else if rr.type == types.NS || rr.type == types.SOA then
        match z.glue rr.ns ar none none with
        | .error e => .error e
        | .ok (ar', _) => Zone.findLoop z qtype fuel an (i + 1) ar' ns
      else if rr.type == types.MX then
        match z.glue rr.mx ar none none with
        | .error e => .error e
        | .ok (ar', _) => Zone.findLoop z qtype fuel an (i + 1) ar' ns
      else if rr.type == types.SRV then
        match z.glue rr.target ar none none with
        | .error e => .error e
        | .ok (ar', _) => Zone.findLoop z qtype fuel an (i + 1) ar' ns
      else Zone.findLoop z qtype fuel an (i + 1) ar ns
    else .ok (an, ar, ns)

/-- `Zone.find(name, type)`: the local answer plus chased glue; returns
`(answer, additional, authority)`. -/
def Zone.find (z : Zone) (fuel : Nat) (name : Name) (t : Nat) :
    Except ZErr (List Record × List Record × List Record) :=
  Zone.findLoop z t fuel (z.get name t) 0 [] []

/-- `Zone.proveNoData(ns)`: append the origin's NSEC. -/
def Zone.proveNoData (z : Zone) (ns : List Record) : List Record :=
  z.push z.origin types.NSEC ns

/-- `Zone.proveNameError(name, ns)`: append the NSEC at
`nsec.lower(name)` when one exists, then the origin's NSEC. -/
def Zone.proveNameError (z : Zone) (name : Name) (ns : List Record) :
    Except ZErr (List Record) :=
  match findLower z.nsec name with
  | .error e => .error e
  | .ok lower =>
    let ns1 :=
      match lower with
      | some l => z.push l types.NSEC ns
      | none => ns
    .ok (z.proveNoData ns1)

/-- `Zone.query(name, type)`: the authoritative resolution state
machine; returns `(answer, authority, additional, aa, ok)`. -/
def Zone.query (z : Zone) (fuel : Nat) (name : Name) (t : Nat) :
    Except ZErr (List Record × List Record × List Record × Bool × Bool) :=
  if 65536 ≤ t then .error .assertFail
  else
    match z.find fuel name t with
    | .error e => .error e
    | .ok (an, ar, ns) =>
      let zn := suffixFrom name z.count
      let authority := zn == z.origin
      if 0 < an.length then
        if authority then .ok (an, ns, ar, true, true)
        else if t == types.NS then .ok ([], z.push name types.DS an, ar, false, true)
        else .ok (an, [], ar, false, true)
      else if authority then
        .ok ([], z.proveNoData (z.get z.origin types.SOA), [], true, false)
      else
        let child := suffixFrom name (z.count + 1)
        match z.find fuel child types.NS with
        | .error e => .error e
        | .ok (nsl, glue, _) =>
          if nsl.length = 0 then
            if z.origin == ([] : Name) then
              match z.proveNameError child (z.get z.origin types.SOA) with
              | .error e => .error e
              | .ok ns3 => .ok ([], ns3, [], false, false)
            else .ok ([], [], [], false, false)
          else .ok ([], z.push child types.DS nsl, glue, false, true)

/-- The response message, restricted to the fields `resolve` sets. -/
structure Message where
  code : Nat := 0
  aa : Bool := false
  answer : List Record := []
  authority : List Record := []
  additional : List Record := []
deriving DecidableEq, Repr

/-- `Zone.resolve(name, type)`: lowercase the name, map ANY to NS, run
`query`, and assemble the message (NXDOMAIN iff `!aa && !ok`). -/
def Zone.resolve (z : Zone) (fuel : Nat) (name : Name) (t : Nat) :
    Except ZErr Message :=
  if 65536 ≤ t then .error .assertFail
  else
    let qname := nameLower name
    let qtype := if t == types.ANY then types.NS else t
    match z.query fuel qname qtype with
    | .error e => .error e
    | .ok (an, ns, ar, aa, ok) =>
      .ok { code := if !aa && !ok then codes.NXDOMAIN else codes.NOERROR
            aa := aa
            answer := an
            authority := ns
            additional := ar }

/-- `Zone.fromString` without the parser: insert a list of records in
order, propagating insertion errors (which abort loading). -/
def insertAll (z : Zone) : List Record → Except ZErr Zone
  | [] => .ok z
  | r :: rs =>
    match z.insert r with
    | .error e => .error e
    | .ok z' => insertAll z' rs

/-- Build a zone from an origin and a record list. -/
def zoneOfRecords (origin : Name) (l : List Record) : Except ZErr Zone :=
  insertAll (mkZone origin) l

/-- Total wrapper used for concrete test zones (all of them load
without error, which each concrete theorem's evaluation re-checks). -/
def zoneOf (origin : Name) (l : List Record) : Zone :=
  match zoneOfRecords origin l with
  | .ok z => z
  | .error _ => mkZone origin

/-! Concrete test inputs used by the claim theorems and witnesses. -/

/-- `example. SOA` whose MNAME `ns1.example.` has no address records. -/
def soaEx : Record := { name := ["example"], type := 6, ns := ["ns1", "example"] }

/-- A zone holding only that SOA. -/
def czSoaOnly : Zone := zoneOf ["example"] [soaEx]

/-- `a.example. CNAME nx.other.` — a chain ending out of zone. -/
def cnameOut : Record := { name := ["a", "example"], type := 5, target := ["nx", "other"] }

/-- Zone of scenario S6: SOA at the origin plus the dangling CNAME. -/
def czS6 : Zone := zoneOf ["example"] [soaEx, cnameOut]

/-- `*.b. A` (payload abstracts the address). -/
def wildA : Record := { name := ["*", "b"], type := 1, payload := 4 }

/-- Zone holding only the wildcard `*.b. A`. -/
def czWild : Zone := zoneOf [] [wildA]

/-- `*.c. CNAME q.c.`. -/
def wildCname : Record := { name := ["*", "c"], type := 5, target := ["q", "c"] }

/-- Zone holding the wildcard CNAME at `*.c.` and the wildcard A at `*.b.`. -/
def czWild2 : Zone := zoneOf [] [wildCname, wildA]

/-- `a.example. A`. -/
def recA : Record := { name := ["a", "example"], type := 1, payload := 1 }

/-- Zone with `recA` inserted once. -/
def czOnce : Zone := zoneOf ["example"] [recA]

/-- Zone with `recA` inserted twice. -/
def czTwice : Zone := zoneOf ["example"] [recA, recA]

/-- `n.example. CNAME t.example.`. -/
def cname6 : Record := { name := ["n", "example"], type := 5, target := ["t", "example"] }

/-- `n.example. A`, sharing its owner with `cname6`. -/
def recA6 : Record := { name := ["n", "example"], type := 1, payload := 7 }

/-- Zone holding both a CNAME and an A at `n.example.`. -/
def czCname : Zone := zoneOf ["example"] [cname6, recA6]

/-- An empty zone with origin `example.`. -/
def czEmpty : Zone := zoneOf ["example"] []

/-- Root SOA. -/
def soaRoot : Record := { name := [], type := 6, ns := ["m", "root"] }

/-- NSEC at the root. -/
def nsecRoot : Record := { name := [], type := 47, payload := 10 }

/-- NSEC at `a.`. -/
def nsecA : Record := { name := ["a"], type := 47, payload := 11 }

/-- NSEC at `zz.`. -/
def nsecZZ : Record := { name := ["zz"], type := 47, payload := 12 }

/-- A root zone with an SOA and an NSEC chain over `.`, `a.`, `zz.`. -/
def czRoot : Zone := zoneOf [] [soaRoot, nsecRoot, nsecA, nsecZZ]

/-- NSEC at `example.`. -/
def nsecEx : Record := { name := ["example"], type := 47, payload := 13 }

/-- Zone with SOA and NSEC at its origin `example.`. -/
def czNoData : Zone := zoneOf ["example"] [soaEx, nsecEx]

/-! ### Canonical order: basic lemmas -/

theorem stringDataInj {a b : String} (h : a.data = b.data) : a = b := by
  cases a
  cases b
  exact congrArg String.mk h

theorem labelCmp_eq_iff {a b : String} : labelCmp a b = .eq ↔ a = b := by
  unfold labelCmp
  split_ifs with h1 h2
  · exact iff_of_false (by simp)
      (fun hab => absurd (hab ▸ h1) (lt_irrefl b.data))
  · exact iff_of_true rfl (stringDataInj h2)
  · exact iff_of_false (by simp) (fun he => h2 (congrArg String.data he))

theorem labelCmp_lt_iff {a b : String} : labelCmp a b = .lt ↔ a.data < b.data := by
  unfold labelCmp
  split_ifs with h1 h2
  · exact iff_of_true rfl h1
  · exact iff_of_false (by simp) h1
  · exact iff_of_false (by simp) h1

theorem labelCmp_gt_iff {a b : String} : labelCmp a b = .gt ↔ b.data < a.data := by
  unfold labelCmp
  split_ifs with h1 h2
  · exact iff_of_false (by simp) (asymm h1)
  · exact iff_of_false (by simp) (fun h => absurd (h2 ▸ h) (lt_irrefl b.data))
  · exact iff_of_true rfl
      ((lt_trichotomy a.data b.data).resolve_left h1 |>.resolve_left h2)

theorem cmpRev_eq_iff : ∀ x y : List String, cmpRev x y = .eq ↔ x = y
  | [], [] => by simp [cmpRev]
  | [], _ :: _ => by simp [cmpRev]
  | _ :: _, [] => by simp [cmpRev]
  | a :: as, b :: bs => by
    simp only [cmpRev]
    cases hab : labelCmp a b with
    | eq =>
      rw [labelCmp_eq_iff] at hab
      subst hab
      simpa using cmpRev_eq_iff as bs
    | lt =>
      refine iff_of_false (by simp) ?_
      intro h
      injection h with h1 h2
      rw [labelCmp_eq_iff.mpr h1] at hab
      simp at hab
    | gt =>
      refine iff_of_false (by simp) ?_
      intro h
      injection h with h1 h2
      rw [labelCmp_eq_iff.mpr h1] at hab
      simp at hab

theorem cmpRev_gt_iff : ∀ x y : List String, cmpRev x y = .gt ↔ cmpRev y x = .lt
  | [], [] => by simp [cmpRev]
  | [], _ :: _ => by simp [cmpRev]
  | _ :: _, [] => by simp [cmpRev]
  | a :: as, b :: bs => by
    simp only [cmpRev]
    cases hab : labelCmp a b with
    | eq =>
      have hba : labelCmp b a = .eq := labelCmp_eq_iff.mpr (labelCmp_eq_iff.mp hab).symm
      rw [hba]
      exact cmpRev_gt_iff as bs
    | lt =>
      have hba : labelCmp b a = .gt := labelCmp_gt_iff.mpr (labelCmp_lt_iff.mp hab)
      rw [hba]
      simp
    | gt =>
      have hba : labelCmp b a = .lt := labelCmp_lt_iff.mpr (labelCmp_gt_iff.mp hab)
      rw [hba]
      simp

theorem cmpRev_lt_trans :
    ∀ x y z : List String, cmpRev x y = .lt → cmpRev y z = .lt → cmpRev x z = .lt
  | [], _, _ :: _, _, _ => by simp [cmpRev]
  | [], y, [], hxy, hyz => by
    cases y with
    | nil => simp [cmpRev] at hxy
    | cons b bs => simp [cmpRev] at hyz
  | _ :: _, [], _, hxy, _ => by simp [cmpRev] at hxy
  | a :: as, b :: bs, [], _, hyz => by simp [cmpRev] at hyz
  | a :: as, b :: bs, c :: cs, hxy, hyz => by
    simp only [cmpRev] at hxy hyz ⊢
    cases hab : labelCmp a b with
    | gt =>
      rw [hab] at hxy
      exact absurd hxy (by simp)
    | eq =>
      rw [hab] at hxy
      have hxy' : cmpRev as bs = .lt := hxy
      have hab' := labelCmp_eq_iff.mp hab
      subst hab'
      cases hbc : labelCmp a c with
      | gt =>
        rw [hbc] at hyz
        exact absurd hyz (by simp)
      | eq =>
        rw [hbc] at hyz
        have hyz' : cmpRev bs cs = .lt := hyz
        exact cmpRev_lt_trans as bs cs hxy' hyz'
      | lt => rfl
    | lt =>
      cases hbc : labelCmp b c with
      | gt =>
        rw [hbc] at hyz
        exact absurd hyz (by simp)
      | eq =>
        have hbc' := labelCmp_eq_iff.mp hbc
        subst hbc'
        rw [hab]
      | lt =>
        have hac : labelCmp a c = .lt :=
          labelCmp_lt_iff.mpr (lt_trans (labelCmp_lt_iff.mp hab) (labelCmp_lt_iff.mp hbc))
        rw [hac]

theorem nameCmp_eq_iff {a b : Name} : nameCmp a b = .eq ↔ a = b := by
  unfold nameCmp
  rw [cmpRev_eq_iff]
  exact List.reverse_inj

theorem nameCmp_self (a : Name) : nameCmp a a = .eq := nameCmp_eq_iff.mpr rfl

theorem nameCmp_gt_iff {a b : Name} : nameCmp a b = .gt ↔ nameLt b a := by
  unfold nameCmp nameLt nameCmp
  exact cmpRev_gt_iff a.reverse b.reverse

theorem nameLt_trans {a b c : Name} : nameLt a b → nameLt b c → nameLt a c :=
  fun h1 h2 => cmpRev_lt_trans a.reverse b.reverse c.reverse h1 h2

theorem nameLt_irrefl (a : Name) : ¬nameLt a a := by
  unfold nameLt
  rw [nameCmp_self]
  simp

theorem nameLt_asymm {a b : Name} : nameLt a b → ¬nameLt b a :=
  fun h1 h2 => nameLt_irrefl a (nameLt_trans h1 h2)

theorem nameLt_ne {a b : Name} : nameLt a b → a ≠ b := by
  intro h heq
  exact nameLt_irrefl a (heq ▸ h)

theorem nameCmp_cases (a b : Name) :
    (nameCmp a b = .eq ∧ a = b) ∨ (nameCmp a b = .lt ∧ nameLt a b) ∨
      (nameCmp a b = .gt ∧ nameLt b a) := by
  cases h : nameCmp a b with
  | eq => exact Or.inl ⟨rfl, nameCmp_eq_iff.mp h⟩
  | lt => exact Or.inr (Or.inl ⟨rfl, h⟩)
  | gt => exact Or.inr (Or.inr ⟨rfl, nameCmp_gt_iff.mp h⟩)

/-! ### Binary search: correctness on sorted lists -/

theorem searchGo_spec (items : List Name) (key : Name)
    (hp : items.Pairwise nameLt) :
    ∀ (fuel start fin : Nat), fin + 1 - start ≤ fuel →
      start ≤ fin + 1 → fin < items.length →
      (∀ (j : Nat) (hj : j < items.length), j < start → nameLt items[j] key) →
      (∀ (j : Nat) (hj : j < items.length), fin < j → nameLt key items[j]) →
      (∃ hr : searchGo items key fuel start fin < items.length,
          nameCmp items[searchGo items key fuel start fin] key = .eq) ∨
        (searchGo items key fuel start fin ≤ items.length ∧
          (∀ (j : Nat) (hj : j < items.length),
              j < searchGo items key fuel start fin → nameLt items[j] key) ∧
          (∀ (j : Nat) (hj : j < items.length),
              searchGo items key fuel start fin ≤ j → nameLt key items[j])) := by
  intro fuel
  induction fuel with
  | zero =>
    intro start fin hn hsf hfl hL hR
    simp only [searchGo]
    exact Or.inr ⟨by omega, hL, fun j hj hge => hR j hj (by omega)⟩
  | succ fuel ih =>
    intro start fin hn hsf hfl hL hR
    rw [searchGo]
    by_cases hc : start ≤ fin ∧ fin < items.length
    · rw [dif_pos hc]
      have hps : start ≤ (start + fin) / 2 := by omega
      have hpf : (start + fin) / 2 ≤ fin := by omega
      have hplen : (start + fin) / 2 < items.length := by omega
      split
      next heq =>
        simp only [List.get_eq_getElem] at heq
        exact Or.inl ⟨hplen, heq⟩
      next heq =>
        simp only [List.get_eq_getElem] at heq
        refine ih _ _ (by omega) (by omega) hfl ?_ hR
        intro j hj hjlt
        rcases Nat.lt_or_ge j ((start + fin) / 2) with hj2 | hj2
        · exact nameLt_trans (List.pairwise_iff_getElem.mp hp j _ hj hplen hj2) heq
        · have : j = (start + fin) / 2 := by omega
          subst this
          exact heq
      next heq =>
        simp only [List.get_eq_getElem] at heq
        have hgt : nameLt key items[(start + fin) / 2] := nameCmp_gt_iff.mp heq
        split_ifs with h0
        · have hstart : start = 0 := by omega
          subst hstart
          refine Or.inr ⟨by omega, hL, ?_⟩
          intro j hj _
          rcases Nat.eq_or_lt_of_le (show (0 + fin) / 2 ≤ j by omega) with hj0 | hj0
          · simp only [← hj0]
            exact hgt
          · exact nameLt_trans hgt
              (List.pairwise_iff_getElem.mp hp ((0 + fin) / 2) j hplen hj hj0)
        · refine ih _ _ (by omega) (by omega) (by omega) hL ?_
          intro j hj hjgt
          rcases Nat.eq_or_lt_of_le (show (start + fin) / 2 ≤ j by omega) with hj2 | hj2
          · simp only [← hj2]
            exact hgt
          · exact nameLt_trans hgt (List.pairwise_iff_getElem.mp hp _ j hplen hj hj2)
    · rw [dif_neg hc]
      refine Or.inr ⟨by omega, hL, ?_⟩
      intro j hj hge
      exact hR j hj (by omega)

theorem search_spec (items : List Name) (key : Name) (hp : items.Pairwise nameLt) :
    (∃ hr : search items key < items.length,
        nameCmp items[search items key] key = .eq) ∨
      (search items key ≤ items.length ∧
        (∀ (j : Nat) (hj : j < items.length),
            j < search items key → nameLt items[j] key) ∧
        (∀ (j : Nat) (hj : j < items.length),
            search items key ≤ j → nameLt key items[j])) := by
  unfold search
  split_ifs with h0
  · refine Or.inr ⟨by omega, ?_, ?_⟩ <;> intro j hj <;> omega
  · exact searchGo_spec items key hp items.length 0 (items.length - 1)
      (by omega) (by omega) (by omega) (fun j hj h => absurd h (by omega))
      (fun j hj h => absurd h (by omega))

theorem search_mem (items : List Name) (key : Name) (hp : items.Pairwise nameLt)
    (hmem : key ∈ items) :
    ∃ hr : search items key < items.length, items[search items key] = key := by
  rcases search_spec items key hp with ⟨hr, heq⟩ | ⟨_, hL, hR⟩
  · exact ⟨hr, nameCmp_eq_iff.mp heq⟩
  · obtain ⟨k, hk, hkey⟩ := List.mem_iff_getElem.mp hmem
    rcases Nat.lt_or_ge k (search items key) with hlt | hge
    · have := hL k hk hlt
      rw [hkey] at this
      exact absurd this (nameLt_irrefl key)
    · have := hR k hk hge
      rw [hkey] at this
      exact absurd this (nameLt_irrefl key)

theorem search_not_mem (items : List Name) (key : Name) (hp : items.Pairwise nameLt)
    (hni : key ∉ items) :
    search items key ≤ items.length ∧
      (∀ (j : Nat) (hj : j < items.length),
          j < search items key → nameLt items[j] key) ∧
      (∀ (j : Nat) (hj : j < items.length),
          search items key ≤ j → nameLt key items[j]) := by
  rcases search_spec items key hp with ⟨hr, heq⟩ | hok
  · exact absurd (nameCmp_eq_iff.mp heq ▸ List.getElem_mem hr) hni
  · exact hok

/-! ### Sorted insertion and the predecessor lookup -/

theorem pairwise_insertAt (items : List Name) (name : Name) (i : Nat)
    (hp : items.Pairwise nameLt)
    (hL : ∀ (j : Nat) (hj : j < items.length), j < i → nameLt items[j] name)
    (hR : ∀ (j : Nat) (hj : j < items.length), i ≤ j → nameLt name items[j]) :
    (items.take i ++ name :: items.drop i).Pairwise nameLt := by
  rw [List.pairwise_append]
  refine ⟨hp.sublist (List.take_sublist i items), ?_, ?_⟩
  · rw [List.pairwise_cons]
    constructor
    · intro b hb
      obtain ⟨k, hk, hbk⟩ := List.mem_iff_getElem.mp hb
      rw [← hbk]
      simp only [List.getElem_drop]
      have hkl : i + k < items.length := by
        simp only [List.length_drop] at hk; omega
      exact hR (i + k) hkl (by omega)
    · exact hp.sublist (List.drop_sublist i items)
  · intro a ha b hb
    obtain ⟨k, hk, hak⟩ := List.mem_iff_getElem.mp ha
    have hk' : k < i := by simp only [List.length_take] at hk; omega
    have hkl : k < items.length := by simp only [List.length_take] at hk; omega
    have hak' : items[k] = a := by
      rw [← hak]; simp only [List.getElem_take]
    rcases List.mem_cons.mp hb with hbn | hbd
    · subst hbn
      rw [← hak']
      exact hL k hkl hk'
    · obtain ⟨k2, hk2, hbk2⟩ := List.mem_iff_getElem.mp hbd
      have hk2l : i + k2 < items.length := by
        simp only [List.length_drop] at hk2; omega
      rw [← hak', ← hbk2]
      simp only [List.getElem_drop]
      exact nameLt_trans (hL k hkl hk') (hR (i + k2) hk2l (by omega))

theorem insertString_pairwise (items : List Name) (name : Name)
    (hp : items.Pairwise nameLt) : (insertString items name).Pairwise nameLt := by
  unfold insertString
  split_ifs with h1 h2
  · exact hp
  · by_cases hmem : name ∈ items
    · obtain ⟨hlen, heqv⟩ := search_mem items name hp hmem
      refine absurd ?_ h2
      rw [List.get_eq_getElem, heqv]
      exact nameCmp_self name
    · obtain ⟨hle, hL, hR⟩ := search_not_mem items name hp hmem
      exact pairwise_insertAt items name _ hp hL hR
  · by_cases hmem : name ∈ items
    · obtain ⟨hlen, _⟩ := search_mem items name hp hmem
      exact absurd hlen h1
    · obtain ⟨hle, hL, hR⟩ := search_not_mem items name hp hmem
      exact pairwise_insertAt items name _ hp hL hR

theorem pairwise_nameLt_nodup {items : List Name} (hp : items.Pairwise nameLt) :
    items.Nodup :=
  hp.imp nameLt_ne

theorem findLower_pred (items : List Name) (name p : Name)
    (hp : items.Pairwise nameLt)
    (hni : name ∉ items)
    (hpmem : p ∈ items) (hplt : nameLt p name)
    (hmax : ∀ q ∈ items, nameLt q name → q = p ∨ nameLt q p)
    (habove : ∃ q ∈ items, nameLt name q) :
    findLower items name = .ok (some p) := by
  have hne : items.length ≠ 0 := by
    intro h0
    rw [List.length_eq_zero] at h0
    subst h0
    simp at hpmem
  obtain ⟨hle, hL, hR⟩ := search_not_mem items name hp hni
  obtain ⟨kp, hkp, hkpv⟩ := List.mem_iff_getElem.mp hpmem
  have hkpi : kp < search items name := by
    by_contra hge
    push_neg at hge
    have hx := hR kp hkp hge
    rw [hkpv] at hx
    exact nameLt_asymm hplt hx
  obtain ⟨q, hqmem, hqlt⟩ := habove
  obtain ⟨kq, hkq, hkqv⟩ := List.mem_iff_getElem.mp hqmem
  have hkqi : search items name ≤ kq := by
    by_contra hlt
    push_neg at hlt
    have hx := hL kq hkq hlt
    rw [hkqv] at hx
    exact nameLt_asymm hqlt hx
  have hilen : search items name < items.length := by omega
  have hgt : nameCmp items[search items name] name = .gt :=
    nameCmp_gt_iff.mpr (hR (search items name) hilen le_rfl)
  unfold findLower
  rw [if_neg hne, List.getElem?_eq_getElem hilen]
  simp only [hgt]
  rw [if_neg (by simp), if_neg (by simp),
    if_neg (show ¬search items name = 0 by omega)]
  rw [List.getElem?_eq_getElem (show search items name - 1 < items.length by omega)]
  have h1 : nameLt items[search items name - 1] name :=
    hL (search items name - 1) (by omega) (by omega)
  rcases hmax _ (List.getElem_mem _) h1 with he | hlt2
  · rw [he]
  · exfalso
    rcases Nat.eq_or_lt_of_le (show kp ≤ search items name - 1 by omega) with hke | hke
    · rw [← hkpv] at hlt2
      simp only [hke] at hlt2
      exact nameLt_irrefl _ hlt2
    · have hpw := List.pairwise_iff_getElem.mp hp kp (search items name - 1)
        hkp (by omega) hke
      rw [hkpv] at hpw
      exact nameLt_asymm hlt2 hpw

/-! ### RecordMap plumbing -/

theorem alGet_alAppend_self (m : List (Nat × List Record)) (k : Nat) (r : Record) :
    alGet (alAppend m k r) k = some ((alGet m k).getD [] ++ [r]) := by
  induction m with
  | nil => simp [alAppend, alGet]
  | cons p rest ih =>
    obtain ⟨k', l⟩ := p
    by_cases hk : k' = k
    · subst hk
      simp [alAppend, alGet]
    · rw [show alAppend ((k', l) :: rest) k r = (k', l) :: alAppend rest k r from
        by simp [alAppend, hk]]
      unfold alGet
      rw [List.find?_cons_of_neg _ (by simp [hk]),
        List.find?_cons_of_neg _ (by simp [hk])]
      exact ih

theorem alGet_alAppend_ne (m : List (Nat × List Record)) (k : Nat) (r : Record)
    (k' : Nat) (h : k' ≠ k) :
    alGet (alAppend m k r) k' = alGet m k' := by
  induction m with
  | nil => simp [alAppend, alGet, Ne.symm h]
  | cons p rest ih =>
    obtain ⟨k0, l⟩ := p
    by_cases hk : k0 = k
    · subst hk
      rw [show alAppend ((k0, l) :: rest) k0 r = (k0, l ++ [r]) :: rest from
        by simp [alAppend]]
      unfold alGet
      rw [List.find?_cons_of_neg _ (by simp [Ne.symm h]),
        List.find?_cons_of_neg _ (by simp [Ne.symm h])]
    · rw [show alAppend ((k0, l) :: rest) k r = (k0, l) :: alAppend rest k r from
        by simp [alAppend, hk]]
      by_cases hk0 : k0 = k'
      · subst hk0
        unfold alGet
        rw [List.find?_cons_of_pos _ (by simp), List.find?_cons_of_pos _ (by simp)]
      · unfold alGet at ih ⊢
        rw [List.find?_cons_of_neg _ (by simp [hk0]),
          List.find?_cons_of_neg _ (by simp [hk0])]
        exact ih

theorem filterKeep_name_eq (n : Name) (r : Record) (h : r.name = n) :
    filterKeep n r = true := by
  unfold filterKeep
  by_cases hw : isWild r.name
  · simp only [hw, Bool.not_true, Bool.false_eq_true, if_false]
    rw [h]
    rw [if_neg (by omega)]
    have hs : n.tail <:+ n := List.tail_suffix n
    simpa using hs
  · simp [hw]

theorem convert_name_eq (n : Name) (r : Record) (h : r.name = n) :
    convert n r = r := by
  unfold convert
  split_ifs with hw
  · cases r
    simp only [Record.mk.injEq]
    simp_all
  · rfl

theorem filterMatches_map_convert (n : Name) (rs : List Record)
    (h : ∀ r ∈ rs, r.name = n) :
    (filterMatches n rs).map (convert n) = rs := by
  induction rs with
  | nil => rfl
  | cons r rest ih =>
    have hr := h r (by simp)
    have hrest : ∀ r' ∈ rest, r'.name = n := fun r' hm => h r' (by simp [hm])
    unfold filterMatches at ih ⊢
    rw [List.filter_cons_of_pos (filterKeep_name_eq n r hr), List.map_cons,
      convert_name_eq n r hr, ih hrest]

theorem RecordMap.pushType_append (m : RecordMap) (name : Name) (t : Nat)
    (an : List Record) :
    m.pushType none name t an = an ++ m.pushType none name t [] := by
  unfold RecordMap.pushType
  cases alGet m.rrs t with
  | none => simp
  | some rrs =>
    by_cases h : 0 < rrs.length
    · cases alGet m.sigs t <;> simp [h]
    · simp [h]

theorem RecordMap.push_append (m : RecordMap) (name : Name) (t : Nat)
    (an : List Record) :
    m.push none name t an = an ++ m.push none name t [] := by
  unfold RecordMap.push
  by_cases ht : (t != types.CNAME) = true
  · rw [if_pos ht, if_pos ht]
    cases alGet m.rrs types.CNAME with
    | none => exact m.pushType_append name t an
    | some crs =>
      by_cases h : 0 < crs.length
      · cases alGet m.sigs types.CNAME <;> simp [h]
      · simp only [h, if_false]
        exact m.pushType_append name t an
  · rw [if_neg ht, if_neg ht]
    exact m.pushType_append name t an

theorem Zone.push_append_get (z : Zone) (hz : z.zsk = none) (name : Name) (t : Nat)
    (an : List Record) :
    z.push name t an = an ++ z.get name t := by
  unfold Zone.get Zone.push
  rw [hz]
  cases alGet z.names name with
  | none => exact z.wild.push_append name t an
  | some m => exact m.push_append name t an

theorem Zone.find_nil (z : Zone) (fuel : Nat) (name : Name) (t : Nat)
    (h : z.get name t = []) : z.find fuel name t = .ok ([], [], []) := by
  unfold Zone.find
  rw [h]
  cases fuel <;> simp [Zone.findLoop]

/-! ### Wildcard matching and insertion invariants -/

theorem filterKeep_wild_iff (Q : Name) (r : Record) (S : List String)
    (h : r.name = "*" :: S) :
    filterKeep Q r = true ↔ S.length + 1 ≤ Q.length ∧ S <:+ Q := by
  unfold filterKeep
  rw [h]
  have hw : isWild ("*" :: S) = true := by simp [isWild]
  rw [hw]
  simp only [Bool.not_true, Bool.false_eq_true, if_false]
  split_ifs with hlen
  · simp only [List.length_cons] at hlen
    constructor
    · intro hf
      exact absurd hf (by simp)
    · rintro ⟨h1, _⟩
      omega
  · simp only [List.length_cons] at hlen
    simp only [List.tail_cons]
    rw [ List.isPrefixOf_iff_prefix, List.reverse_prefix]
    constructor
    · intro hs
      exact ⟨by omega, hs⟩
    · rintro ⟨_, hs⟩
      exact hs

theorem isSubdomain_nil (n : Name) : isSubdomain [] n = true := by
  simp [isSubdomain, List.isSuffixOf]

theorem Zone.insert_wild (z : Zone) (r : Record) (ho : z.origin = [])
    (hcanon : canonicalRecord r = r) (hwild : isWild r.name = true) :
    z.insert r = .ok
      { z with
        wild := z.wild.insert r
        nsec :=
          if r.type == types.NSEC then insertString z.nsec r.name
          else z.nsec } := by
  unfold Zone.insert
  simp only [hcanon, ho, isSubdomain_nil, Bool.not_true, Bool.and_false,
    Bool.false_eq_true, if_false, hwild, if_true]

theorem Zone.insert_nsec_pairwise (z : Zone) (r : Record) (z' : Zone)
    (hp : z.nsec.Pairwise nameLt) (h : z.insert r = .ok z') :
    z'.nsec.Pairwise nameLt := by
  simp only [Zone.insert] at h
  split at h
  · exact absurd h (by simp)
  · split at h <;>
    · rw [Except.ok.injEq] at h
      subst h
      dsimp only
      split_ifs
      · exact insertString_pairwise _ _ hp
      · exact hp

theorem insertAll_nsec_pairwise : ∀ (l : List Record) (z z' : Zone),
    z.nsec.Pairwise nameLt → insertAll z l = .ok z' → z'.nsec.Pairwise nameLt := by
  intro l
  induction l with
  | nil =>
    intro z z' hp h
    simp only [insertAll] at h
    rw [Except.ok.injEq] at h
    subst h
    exact hp
  | cons r rs ih =>
    intro z z' hp h
    simp only [insertAll] at h
    cases hins : z.insert r with
    | error e =>
      rw [hins] at h
      exact absurd h (by simp)
    | ok z1 =>
      rw [hins] at h
      exact ih z1 z' (Zone.insert_nsec_pairwise z r z1 hp hins) h

theorem insertAll_wild_inv (S : List String) (T : Nat) (hT : T ≠ types.RRSIG) :
    ∀ (l : List Record) (z : Zone) (acc : List Record),
      (∀ r ∈ l, r.name = "*" :: S ∧ r.type = T ∧ canonicalRecord r = r) →
      z.origin = [] → z.names = [] → z.zsk = none → z.wild.sigs = [] →
      z.wild.rrs = (if acc = [] then [] else [(T, acc)]) →
      ∃ z', insertAll z l = .ok z' ∧ z'.origin = [] ∧ z'.names = [] ∧
        z'.zsk = none ∧ z'.wild.sigs = [] ∧
        z'.wild.rrs = (if acc ++ l = [] then [] else [(T, acc ++ l)]) := by
  intro l
  induction l with
  | nil =>
    intro z acc _ ho hn hz hs hr
    refine ⟨z, by simp [insertAll], ho, hn, hz, hs, ?_⟩
    simpa using hr
  | cons r rs ih =>
    intro z acc hall ho hn hz hs hr
    obtain ⟨hname, htype, hcanon⟩ := hall r (by simp)
    have hwild : isWild r.name = true := by simp [hname, isWild]
    have hins := Zone.insert_wild z r ho hcanon hwild
    have hrrs : (z.wild.insert r).rrs =
        (if acc ++ [r] = [] then [] else [(T, acc ++ [r])]) := by
      unfold RecordMap.insert
      rw [hr, htype]
      by_cases hacc : acc = []
      · subst hacc
        simp [alAppend]
      · rw [if_neg hacc, if_neg (show ¬(acc ++ [r] = []) by simp)]
        simp [alAppend]
    have hsigs : (z.wild.insert r).sigs = [] := by
      unfold RecordMap.insert
      rw [htype, if_neg (by simpa using hT), hs]
    obtain ⟨z', hins', h1, h2, h3, h4, h5⟩ :=
      ih { z with
            wild := z.wild.insert r
            nsec :=
              if r.type == types.NSEC then insertString z.nsec r.name
              else z.nsec }
        (acc ++ [r]) (fun x hx => hall x (by simp [hx])) ho hn hz hsigs hrrs
    refine ⟨z', ?_, h1, h2, h3, h4, ?_⟩
    · unfold insertAll
      rw [hins]
      exact hins'
    · rw [h5]
      simp

theorem alGet_nil_names (Q : Name) : alGet ([] : List (Name × RecordMap)) Q = none := rfl

theorem Zone.get_no_exact (z : Zone) (Q : Name) (t : Nat)
    (hn : alGet z.names Q = none) :
    z.get Q t = z.wild.push z.zsk Q t [] := by
  unfold Zone.get Zone.push
  rw [hn]

theorem RecordMap.push_single (m : RecordMap) (T : Nat) (l : List Record) (Q : Name)
    (hr : m.rrs = [(T, l)]) (hs : m.sigs = []) (hl : l ≠ []) :
    m.push none Q T [] = (filterMatches Q l).map (convert Q) := by
  have hlen : 0 < l.length := by
    cases l with
    | nil => exact absurd rfl hl
    | cons a as => simp
  unfold RecordMap.push RecordMap.pushType
  rw [hr, hs]
  by_cases hT5 : T = types.CNAME
  · subst hT5
    rw [if_neg (by simp)]
    rw [show alGet [(types.CNAME, l)] types.CNAME = some l from by simp [alGet]]
    simp [hlen, alGet]
  · rw [if_pos (by simpa using hT5)]
    rw [show alGet [(T, l)] types.CNAME = (none : Option (List Record)) from
      by simp [alGet, hT5]]
    rw [show alGet [(T, l)] T = some l from by simp [alGet]]
    simp [hlen, alGet]

theorem RecordMap.push_empty (m : RecordMap) (t : Nat) (Q : Name)
    (hr : m.rrs = []) :
    m.push none Q t [] = [] := by
  unfold RecordMap.push RecordMap.pushType
  rw [hr]
  split_ifs <;> simp [alGet]

theorem filterMatches_wild (S : List String) (l : List Record) (Q : Name)
    (hname : ∀ r ∈ l, r.name = "*" :: S) :
    (filterMatches Q l).map (convert Q) =
      (if S.length + 1 ≤ Q.length ∧ S <:+ Q then
        l.map (fun r => { r with name := Q }) else []) := by
  by_cases hc : S.length + 1 ≤ Q.length ∧ S <:+ Q
  · rw [if_pos hc]
    unfold filterMatches
    rw [List.filter_eq_self.mpr
      (fun r hr => (filterKeep_wild_iff Q r S (hname r hr)).mpr hc)]
    apply List.map_congr_left
    intro r hr
    unfold convert
    rw [if_pos (by simp [isWild, hname r hr])]
  · rw [if_neg hc]
    unfold filterMatches
    rw [show l.filter (filterKeep Q) = [] from List.filter_eq_nil_iff.mpr
      (fun r hr hk => hc ((filterKeep_wild_iff Q r S (hname r hr)).mp hk))]
    rfl

theorem wild_zone_get (S : List String) (T : Nat) (l : List Record) (z : Zone)
    (Q : Name)
    (hname : ∀ r ∈ l, r.name = "*" :: S)
    (hn : z.names = []) (hz : z.zsk = none) (hs : z.wild.sigs = [])
    (hr : z.wild.rrs = (if l = [] then [] else [(T, l)])) :
    z.get Q T =
      (if S.length + 1 ≤ Q.length ∧ S <:+ Q then
        l.map (fun r => { r with name := Q }) else []) := by
  rw [Zone.get_no_exact z Q T (by rw [hn]; exact alGet_nil_names Q), hz]
  by_cases hl : l = []
  · subst hl
    rw [if_pos rfl] at hr
    rw [z.wild.push_empty T Q hr]
    simp
  · rw [if_neg hl] at hr
    rw [z.wild.push_single T l Q hr hs hl]
    exact filterMatches_wild S l Q hname

/-! ### Claim theorems -/

/-- Claim C1 (code bug): the claim says `Zone.query`/`Zone.resolve` never
raise, in particular when `find` invokes `glue` with no authority-output
list.  In fact, for a zone holding only `example. SOA` with MNAME
`ns1.example.` and no address records, the query `(example., SOA)` finds
no glue, `glue` then calls `this.push(name, SOA, undefined)`, and
`Zone.push`'s `assert(Array.isArray(an))` throws. -/
theorem c1_query_raises_without_glue :
    czSoaOnly.query 9 ["example"] types.SOA = .error .assertFail ∧
    czSoaOnly.resolve 9 ["example"] types.SOA = .error .assertFail :=
  ⟨rfl, rfl⟩

/-- Claim C3 (code bug): `lower(name)` is claimed to return the greatest
stored name strictly below `name` whenever `name` is absent and some
stored name is smaller.  For the NameList `["a."]` and the absent name
`"b."` (greater than every stored name), the binary search returns the
list length, `items[i]` is `undefined`, and the comparator's input
assertion throws instead: `findLower` yields an assertion error, not
`ok (some "a.")`, even though `a. < b.` and `b.` is not stored. -/
theorem c3_lower_raises_above_max :
    findLower [["a"]] ["b"] = .error .assertFail ∧
    nameLt ["a"] ["b"] ∧ (["b"] : Name) ∉ [(["a"] : Name)] :=
  ⟨rfl, by decide, by decide⟩

/-- Claim C4 (code bug): the claim (and the source comment) says that
when `glue` appends nothing and an authority-output list is supplied,
the *zone's* SOA is appended.  The code instead appends the SOA stored
at the glue *target* name, which for scenario S6 (zone `example.` with
its SOA and `a.example. CNAME nx.other.`, query `(a.example., A)`) is
nothing: the answer is the CNAME alone and the authority section stays
empty even though the zone's SOA exists. -/
theorem c4_soa_fallback_misses :
    czS6.resolve 9 ["a", "example"] types.A =
      .ok { code := codes.NOERROR, aa := true,
            answer := [{ name := ["a", "example"], type := 5,
                         target := ["nx", "other"] }],
            authority := [], additional := [] } ∧
    czS6.get ["example"] types.SOA ≠ [] :=
  ⟨rfl, by decide⟩

/-- Claim C2, counterexample: the claim's matching rule requires the
query name to have *strictly more* labels than the wildcard owner
`*.T`.  For the wildcard `*.b.` and query `a.b.` the label counts are
equal (2 = 2), so under the claim the wildcard must contribute nothing;
the code matches and returns the rewritten RRset.  Moreover even a
query satisfying the corrected rule can get nothing back: a wildcard
CNAME at `*.c.` in the same wildcard map short-circuits the lookup for
`(x.b., A)` although `*.b. A` matches. -/
theorem c2_strict_label_counterexample :
    (¬(["a", "b"] : Name).length > (["*", "b"] : Name).length) ∧
    czWild.names = [] ∧
    czWild.get ["a", "b"] types.A =
      [{ name := ["a", "b"], type := 1, payload := 4 }] ∧
    ((["b"] : List String).length + 1 ≤ (["x", "b"] : Name).length ∧
      ["b"] <:+ (["x", "b"] : Name)) ∧
    czWild2.names = [] ∧
    czWild2.get ["x", "b"] types.A = [] :=
  ⟨by decide, rfl, rfl, by decide, rfl, rfl⟩

/-- Claim C5, counterexample: inserting the same A record twice is
claimed to leave retrieval unchanged; in fact `RecordMap.insert`
appends unconditionally and `get` then returns the record twice. -/
theorem c5_double_insert_counterexample :
    czTwice.get ["a", "example"] types.A = [recA, recA] ∧
    czOnce.get ["a", "example"] types.A = [recA] ∧
    ([recA, recA] : List Record) ≠ [recA] :=
  ⟨rfl, rfl, by decide⟩

/-- Claim C10 (confirmed): `has` consults only the exact-owner table —
for any name with no exact-owner entry it returns `false` for every
type — while a matching wildcard can still make `get` non-empty, so
`has = false` and `get ≠ []` hold together (witnessed by the zone
holding only `*.b. A` and the query name `a.b.`). -/
theorem c10_has_exact_only (z : Zone) (n : Name) (t : Nat)
    (hn : alGet z.names n = none) :
    z.has n t = false ∧
      (czWild.has ["a", "b"] types.A = false ∧
        czWild.get ["a", "b"] types.A ≠ []) := by
  constructor
  · unfold Zone.has
    rw [hn]
  · exact ⟨rfl, by decide⟩

/-- Witness for C10 at a concrete input. -/
theorem c10_has_exact_only_witness :
    czWild.has ["q"] types.NS = false ∧
      (czWild.has ["a", "b"] types.A = false ∧
        czWild.get ["a", "b"] types.A ≠ []) :=
  c10_has_exact_only czWild ["q"] types.NS rfl

/-- Claim C7 (confirmed): `resolve` lowercases the name, maps ANY to NS,
and whenever `query` on that lowered name and mapped type returns
`(an, ns, ar, aa, ok)`, the message copies the three sections and the
`aa` flag unchanged, with response code NXDOMAIN iff `aa = false` and
`ok = false`, NOERROR otherwise. -/
theorem c7_resolve_assembly (z : Zone) (fuel : Nat) (name : Name) (t : Nat)
    (ht : t < 65536) (an ns ar : List Record) (aa ok : Bool)
    (hq : z.query fuel (nameLower name) (if t == types.ANY then types.NS else t) =
      .ok (an, ns, ar, aa, ok)) :
    ∃ msg, z.resolve fuel name t = .ok msg ∧
      msg.aa = aa ∧ msg.answer = an ∧ msg.authority = ns ∧
      msg.additional = ar ∧
      (msg.code = codes.NXDOMAIN ↔ aa = false ∧ ok = false) ∧
      (msg.code = codes.NXDOMAIN ∨ msg.code = codes.NOERROR) := by
  unfold Zone.resolve
  rw [if_neg (by omega)]
  dsimp only
  rw [hq]
  dsimp only
  refine ⟨_, rfl, rfl, rfl, rfl, rfl, ?_, ?_⟩
  · cases aa <;> cases ok <;> simp [codes.NXDOMAIN, codes.NOERROR]
  · cases aa <;> cases ok <;> simp [codes.NXDOMAIN, codes.NOERROR]

/-- Witness for C7: the empty `example.` zone answers `(q.example., A)`
as authoritative NODATA, and `resolve` assembles NOERROR from it. -/
theorem c7_resolve_assembly_witness :
    ∃ msg, czEmpty.resolve 3 ["q", "example"] types.A = .ok msg ∧
      msg.aa = true ∧ msg.answer = [] ∧ msg.authority = [] ∧
      msg.additional = [] ∧
      (msg.code = codes.NXDOMAIN ↔ true = false ∧ false = false) ∧
      (msg.code = codes.NXDOMAIN ∨ msg.code = codes.NOERROR) :=
  c7_resolve_assembly czEmpty 3 ["q", "example"] types.A (by decide)
    [] [] [] true false rfl

/-- Claim C9 (confirmed): a query at the origin for a type with no local
answer returns `aa = true, ok = false`, and `resolve` then produces
NOERROR with an empty answer and an authority section consisting of the
origin's SOA RRset followed by the origin's NSEC RRset (in a zone
without a ZSK, where no signature is synthesized on the fly). -/
theorem c9_nodata (z : Zone) (t fuel : Nat)
    (hc : z.count = z.origin.length) (ht : t < 65536) (hA : t ≠ types.ANY)
    (hz : z.zsk = none) (hlow : nameLower z.origin = z.origin)
    (hget : z.get z.origin t = []) :
    z.query fuel z.origin t =
      .ok ([], z.get z.origin types.SOA ++ z.get z.origin types.NSEC, [],
        true, false) ∧
    z.resolve fuel z.origin t =
      .ok { code := codes.NOERROR, aa := true, answer := [],
            authority := z.get z.origin types.SOA ++ z.get z.origin types.NSEC,
            additional := [] } := by
  have hsuffix : suffixFrom z.origin z.count = z.origin := by
    rw [hc]
    unfold suffixFrom
    split_ifs with h0
    · rfl
    · simp
  have hq : z.query fuel z.origin t =
      .ok ([], z.get z.origin types.SOA ++ z.get z.origin types.NSEC, [],
        true, false) := by
    unfold Zone.query
    rw [if_neg (by omega), Zone.find_nil z fuel z.origin t hget]
    dsimp only
    rw [hsuffix]
    simp only [beq_self_eq_true, List.length_nil, Nat.lt_irrefl, if_false,
      if_true]
    unfold Zone.proveNoData
    rw [Zone.push_append_get z hz]
  refine ⟨hq, ?_⟩
  unfold Zone.resolve
  rw [if_neg (by omega)]
  dsimp only
  rw [hlow, if_neg (by simpa using hA), hq]
  rfl

/-- Witness for C9: the zone with SOA and NSEC at `example.`, queried at
the origin for A. -/
theorem c9_nodata_witness :
    czNoData.query 5 ["example"] types.A =
      .ok ([], czNoData.get ["example"] types.SOA ++
        czNoData.get ["example"] types.NSEC, [], true, false) ∧
    czNoData.resolve 5 ["example"] types.A =
      .ok { code := codes.NOERROR, aa := true, answer := [],
            authority := czNoData.get ["example"] types.SOA ++
              czNoData.get ["example"] types.NSEC,
            additional := [] } :=
  c9_nodata czNoData types.A 5 rfl (by decide) (by decide) rfl rfl rfl

/-- Claim C6 (confirmed): if the exact-owner table holds a (non-empty)
CNAME RRset at `n`, then retrieval at `(n, t)` for any `t ≠ CNAME`
returns exactly that CNAME RRset followed by its covering RRSIGs — or
one on-the-fly signature when the zone holds a ZSK and no stored RRSIG
covers CNAME — and never any record of another type stored at `n`. -/
theorem c6_cname_exclusivity (z : Zone) (n : Name) (t : Nat) (m : RecordMap)
    (cs : List Record)
    (hm : alGet z.names n = some m) (hcs : alGet m.rrs types.CNAME = some cs)
    (hne : cs ≠ []) (hnames : ∀ r ∈ cs, r.name = n) (ht : t ≠ types.CNAME) :
    z.get n t = cs ++
      (match alGet m.sigs types.CNAME, z.zsk with
       | some sigs, _ => (filterMatches n sigs).map (convert n)
       | none, some signf => [signf cs]
       | none, none => []) := by
  have hlen : 0 < cs.length := by
    cases cs with
    | nil => exact absurd rfl hne
    | cons a as => simp
  unfold Zone.get Zone.push
  rw [hm]
  dsimp only
  unfold RecordMap.push
  rw [if_pos (by simpa using ht), hcs]
  dsimp only
  rw [if_pos hlen, List.nil_append, filterMatches_map_convert n cs hnames]
  cases hsig : alGet m.sigs types.CNAME with
  | some sigs => rfl
  | none =>
    cases hzk : z.zsk with
    | some f => rfl
    | none => simp

/-- Witness for C6: the zone holding both a CNAME and an A at
`n.example.`; the A query returns the CNAME alone. -/
theorem c6_cname_exclusivity_witness :
    czCname.get ["n", "example"] types.A = [cname6] := by
  have h := c6_cname_exclusivity czCname ["n", "example"] types.A
    ⟨[(types.CNAME, [cname6]), (types.A, [recA6])], []⟩ [cname6]
    rfl rfl (by decide) (by decide) (by decide)
  rw [h]
  rfl

/-- Claim C5 (corrected): ingest is *not* idempotent for ordinary
records — inserting the same record twice appends it twice to its
owner/type RRset (so retrieval returns it twice, see the
counterexample) — while for NSEC the NameList does contain each owner
name at most once after any sequence of insertions. -/
theorem c5_ingest (o : Name) (l : List Record) (z : Zone)
    (hz : zoneOfRecords o l = .ok z) (m : RecordMap) (r : Record) :
    z.nsec.Nodup ∧
      alGet ((m.insert r).insert r).rrs r.type =
        some ((alGet m.rrs r.type).getD [] ++ [r, r]) ∧
      alGet (m.insert r).rrs r.type =
        some ((alGet m.rrs r.type).getD [] ++ [r]) := by
  refine ⟨?_, ?_, alGet_alAppend_self m.rrs r.type r⟩
  · exact pairwise_nameLt_nodup
      (insertAll_nsec_pairwise l (mkZone o) z (by simp [mkZone]) hz)
  · unfold RecordMap.insert
    dsimp only
    rw [alGet_alAppend_self, alGet_alAppend_self]
    simp

/-- Witness for C5 at the concrete root zone (whose NSEC list has three
entries) and a concrete record/map. -/
theorem c5_ingest_witness :
    czRoot.nsec.Nodup ∧
      alGet (((⟨[], []⟩ : RecordMap).insert recA).insert recA).rrs recA.type =
        some ((alGet (⟨[], []⟩ : RecordMap).rrs recA.type).getD [] ++
          [recA, recA]) ∧
      alGet ((⟨[], []⟩ : RecordMap).insert recA).rrs recA.type =
        some ((alGet (⟨[], []⟩ : RecordMap).rrs recA.type).getD [] ++ [recA]) :=
  c5_ingest [] [soaRoot, nsecRoot, nsecA, nsecZZ] czRoot rfl ⟨[], []⟩ recA

/-- Claim C2 (corrected): the wildcard owner `*.S` matches a query name
Q iff Q has at least as many labels as `*.S` (equivalently, strictly
more labels than `S`) and the labels of `S` equal the corresponding
rightmost labels of Q — not *strictly more* labels than `*.S` as
claimed.  Under that corrected rule, in a zone loaded with exactly the
wildcard's RRset at `*.S` (type `T`, no ZSK), `zone.get(Q, T)` returns
the RRset with every owner rewritten to Q when Q matches (the zone has
no exact-owner entries at all), and returns nothing when Q does not
match. -/
theorem c2_wildcard_match (S : List String) (T : Nat) (l : List Record)
    (z : Zone) (Q : Name) (r : Record)
    (hT : T ≠ types.RRSIG)
    (hall : ∀ x ∈ l, x.name = "*" :: S ∧ x.type = T ∧ canonicalRecord x = x)
    (hz : zoneOfRecords [] l = .ok z)
    (hrname : r.name = "*" :: S) :
    (filterKeep Q r = true ↔ S.length + 1 ≤ Q.length ∧ S <:+ Q) ∧
    z.names = [] ∧
    z.get Q T =
      (if S.length + 1 ≤ Q.length ∧ S <:+ Q then
        l.map (fun x => { x with name := Q }) else []) := by
  obtain ⟨z', hz', h1, h2, h3, h4, h5⟩ :=
    insertAll_wild_inv S T hT l (mkZone []) [] hall rfl rfl rfl rfl
      (by simp [mkZone])
  have hzz : z = z' := by
    unfold zoneOfRecords at hz
    rw [hz] at hz'
    rw [Except.ok.injEq] at hz'
    exact hz'
  subst hzz
  refine ⟨filterKeep_wild_iff Q r S hrname, h2, ?_⟩
  exact wild_zone_get S T l z Q (fun x hx => (hall x hx).1) h2 h3 h4
    (by simpa using h5)

/-- Witness for C2 at the zone holding only `*.b. A` and the matching
query name `a.b.`. -/
theorem c2_wildcard_match_witness :
    (filterKeep ["a", "b"] wildA = true ↔
      (["b"] : List String).length + 1 ≤ (["a", "b"] : Name).length ∧
        ["b"] <:+ (["a", "b"] : Name)) ∧
    czWild.names = [] ∧
    czWild.get ["a", "b"] types.A =
      (if (["b"] : List String).length + 1 ≤ (["a", "b"] : Name).length ∧
          ["b"] <:+ (["a", "b"] : Name) then
        [wildA].map (fun x => { x with name := ["a", "b"] }) else []) :=
  c2_wildcard_match ["b"] types.A [wildA] czWild ["a", "b"] wildA
    (by decide) (by decide) rfl rfl

/-- Claim C8 (confirmed): with a root origin, a query for a name under a
non-existent TLD (no local answer, not the origin itself, no NS RRset
at the one-label child) returns `aa = false, ok = false` with authority
= origin SOA, then the NSEC at the canonical predecessor `p` of the
child (the greatest NSEC owner below it, which exists here along with
some NSEC owner above it), then the origin NSEC; `resolve` turns this
into NXDOMAIN.  With a non-root origin, the same situation yields an
empty authority section. -/
theorem c8_nxdomain :
    (∀ (z : Zone) (name : Name) (t fuel : Nat) (p : Name),
      z.origin = [] → z.count = 0 → z.zsk = none → t < 65536 →
      t ≠ types.ANY → nameLower name = name → name ≠ [] →
      z.get name t = [] →
      z.get (suffixFrom name 1) types.NS = [] →
      z.nsec.Pairwise nameLt →
      suffixFrom name 1 ∉ z.nsec →
      p ∈ z.nsec → nameLt p (suffixFrom name 1) →
      (∀ q ∈ z.nsec, nameLt q (suffixFrom name 1) → q = p ∨ nameLt q p) →
      (∃ q ∈ z.nsec, nameLt (suffixFrom name 1) q) →
      z.query fuel name t =
        .ok ([], z.get z.origin types.SOA ++
          (z.get p types.NSEC ++ z.get z.origin types.NSEC), [],
          false, false) ∧
      z.resolve fuel name t =
        .ok { code := codes.NXDOMAIN, aa := false, answer := [],
              authority := z.get z.origin types.SOA ++
                (z.get p types.NSEC ++ z.get z.origin types.NSEC),
              additional := [] }) ∧
    (∀ (z : Zone) (name : Name) (t fuel : Nat),
      t < 65536 → z.origin ≠ [] →
      z.get name t = [] →
      suffixFrom name z.count ≠ z.origin →
      z.get (suffixFrom name (z.count + 1)) types.NS = [] →
      z.query fuel name t = .ok ([], [], [], false, false)) := by
  constructor
  · intro z name t fuel p ho hc hz ht hA hlow hne hget hgetns hp hnmem hpmem
      hplt hmax habove
    have hflow : findLower z.nsec (suffixFrom name 1) = .ok (some p) :=
      findLower_pred z.nsec _ p hp hnmem hpmem hplt hmax habove
    have hq : z.query fuel name t =
        .ok ([], z.get z.origin types.SOA ++
          (z.get p types.NSEC ++ z.get z.origin types.NSEC), [],
          false, false) := by
      unfold Zone.query
      rw [if_neg (by omega), Zone.find_nil z fuel name t hget]
      dsimp only
      rw [hc]
      rw [show suffixFrom name 0 = name from rfl]
      simp only [Nat.zero_add]
      rw [ho, beq_eq_false_iff_ne.mpr hne]
      simp only [List.length_nil, Nat.lt_irrefl, if_false,
        Bool.false_eq_true]
      rw [Zone.find_nil z fuel (suffixFrom name 1) types.NS hgetns]
      dsimp only
      simp only [beq_self_eq_true, if_true, List.length_nil]
      unfold Zone.proveNameError
      rw [hflow]
      dsimp only
      unfold Zone.proveNoData
      rw [Zone.push_append_get z hz, Zone.push_append_get z hz]
      rw [List.append_assoc]
      rw [ho]
    refine ⟨hq, ?_⟩
    unfold Zone.resolve
    rw [if_neg (by omega)]
    dsimp only
    rw [hlow, if_neg (by simpa using hA), hq]
    rfl
  · intro z name t fuel ht ho hget hsuf hgetns
    unfold Zone.query
    rw [if_neg (by omega), Zone.find_nil z fuel name t hget]
    dsimp only
    rw [beq_eq_false_iff_ne.mpr hsuf]
    simp only [List.length_nil, Nat.lt_irrefl, if_false,
      Bool.false_eq_true]
    rw [Zone.find_nil z fuel (suffixFrom name (z.count + 1)) types.NS hgetns]
    dsimp only
    rw [beq_eq_false_iff_ne.mpr ho]
    simp

/-- Witness for C8: the concrete root zone (SOA at `.`, NSEC chain over
`.`, `a.`, `zz.`) queried for `(x.b., A)` — child `b.`, predecessor
`a.` — and the empty non-root zone `example.` queried for
`(x.other., A)`. -/
theorem c8_nxdomain_witness :
    (czRoot.query 9 ["x", "b"] types.A =
      .ok ([], czRoot.get czRoot.origin types.SOA ++
        (czRoot.get ["a"] types.NSEC ++ czRoot.get czRoot.origin types.NSEC),
        [], false, false) ∧
      czRoot.resolve 9 ["x", "b"] types.A =
        .ok { code := codes.NXDOMAIN, aa := false, answer := [],
              authority := czRoot.get czRoot.origin types.SOA ++
                (czRoot.get ["a"] types.NSEC ++
                  czRoot.get czRoot.origin types.NSEC),
              additional := [] }) ∧
    czEmpty.query 9 ["x", "other"] types.A = .ok ([], [], [], false, false) :=
  ⟨c8_nxdomain.1 czRoot ["x", "b"] types.A 9 ["a"] rfl rfl rfl (by decide)
      (by decide) rfl (by decide) rfl rfl (by decide) (by decide) (by decide)
      (by decide) (by decide) (by decide),
    c8_nxdomain.2 czEmpty ["x", "other"] types.A 9 (by decide) (by decide)
      rfl (by decide) rfl⟩
